import Mathlib

/-!
Verification of the histop history-ingestion engine: a shallow embedding of
the tokenizer, pipeline splitter, record readers, dialect detector and
bar-segment renderer, with theorems checking the design document's claims.

Strings are modelled as `List Char`; byte streams as `List Nat`
(one `Nat` per byte); machine hash maps as association lists mutated only
through the aggregator's increment operation, mirroring the source.
-/

/-- Strings from the source are modelled as lists of characters. -/
abbrev Str := List Char

/-- Convert a Lean string literal to the `Str` model. -/
def strL (s : String) : Str := s.toList

/-- Bytes of an ASCII string literal (UTF-8 of ASCII text is its code points). -/
def bytesOf (s : String) : List Nat := s.toList.map (fun c => c.toNat)

/-- Rust `str::starts_with(char)`: test the first character. -/
def startsC (s : Str) (c : Char) : Bool :=
  match s with
  | [] => false
  | a :: _ => a == c

/-- Rust `str::starts_with(&str)`: test a leading run of characters. -/
def startsStr : Str → Str → Bool
  | _, [] => true
  | [], _ :: _ => false
  | a :: s, p :: ps => a == p && startsStr s ps

/-- Rust `str::ends_with(char)`: test the last character. -/
def endsC (s : Str) (c : Char) : Bool :=
  match s.reverse with
  | [] => false
  | a :: _ => a == c

/-- Rust `str::contains(char)` and `find_byte`: membership of a character. -/
def containsChar (s : Str) (c : Char) : Bool :=
  match s with
  | [] => false
  | a :: rest => a == c || containsChar rest c

/-- Rust `str::strip_prefix`: remove a leading run, or fail. -/
def stripPre : Str → Str → Option Str
  | s, [] => some s
  | [], _ :: _ => none
  | a :: s, p :: ps => if a = p then stripPre s ps else none

/-- ASCII whitespace per `u8::is_ascii_whitespace`: space, tab, line feed,
form feed, carriage return. -/
def isAsciiWS (c : Char) : Bool :=
  c.toNat == 32 || c.toNat == 9 || c.toNat == 10 || c.toNat == 12 || c.toNat == 13

/-- Unicode White_Space per `char::is_whitespace`, used by Rust `str::trim`. -/
def isRustWS (c : Char) : Bool :=
  c.toNat == 9 || c.toNat == 10 || c.toNat == 11 || c.toNat == 12 ||
  c.toNat == 13 || c.toNat == 32 || c.toNat == 0x85 || c.toNat == 0xA0 ||
  c.toNat == 0x1680 ||
  (decide (0x2000 ≤ c.toNat) && decide (c.toNat ≤ 0x200A)) ||
  c.toNat == 0x2028 || c.toNat == 0x2029 || c.toNat == 0x202F ||
  c.toNat == 0x205F || c.toNat == 0x3000

/-- Rust `str::trim_start`. -/
def rustTrimStart (s : Str) : Str := s.dropWhile isRustWS

/-- Rust `str::trim_end`. -/
def rustTrimEnd (s : Str) : Str := (s.reverse.dropWhile isRustWS).reverse

/-- Rust `str::trim`. -/
def rustTrim (s : Str) : Str := rustTrimEnd (rustTrimStart s)

/-- The readers' `trim_line_end`: strip all trailing `\n` and `\r`. -/
def trimLineEnd (s : Str) : Str :=
  (s.reverse.dropWhile (fun c => c == '\n' || c == '\r')).reverse

/-- Line reading strips a carriage return left before the newline. -/
def dropCR (s : Str) : Str :=
  match s.reverse with
  | '\r' :: rest => rest.reverse
  | _ => s

/-! ## Tokenizer / Filter: `get_first_word` (src/shared/command_parse.rs) -/

/-- Scanner state for splitting a command into ASCII-whitespace-separated
words, mirroring the byte loop of `get_first_word`. -/
def wordsGo : Str → Str → List Str
  | [], acc => if acc = [] then [] else [acc.reverse]
  | c :: cs, acc =>
    if isAsciiWS c then
      if acc = [] then wordsGo cs [] else acc.reverse :: wordsGo cs []
    else wordsGo cs (c :: acc)

/-- The whitespace-separated words of a command, in order. -/
def asciiWords (s : Str) : List Str := wordsGo s []

/-- Backslash trimming per `trim_matches`: strip leading and trailing backslashes. -/
def dropBS (w : Str) : Str :=
  ((w.dropWhile (fun c => c == '\\')).reverse.dropWhile (fun c => c == '\\')).reverse

/-- Take the portion before the first embedded backslash (`cd\numount` to `cd`). -/
def beforeBS (w : Str) : Str := w.takeWhile (fun c => c != '\\')

/-- Path normalization: the substring after the last `/` (Unix separator). -/
def afterLastSlash (w : Str) : Str := (w.reverse.takeWhile (fun c => c != '/')).reverse

/-- The word-scanning loop of `get_first_word`, one word at a time. -/
def firstWordAux : List Str → List Str → Option Str
  | [], _ => none
  | w :: ws, filtered =>
    if w = strL (r"--") then firstWordAux ws filtered
    else if startsC w '#' then none
    else if startsC w '-' then firstWordAux ws filtered
    else
      let name := afterLastSlash (beforeBS (dropBS w))
      if name = [] then firstWordAux ws filtered
      else if startsC name '#' then none
      else if startsC name '-' then firstWordAux ws filtered
      else if name ∈ filtered then firstWordAux ws filtered
      else if !startsC name '$' && containsChar name '=' then firstWordAux ws filtered
      else some name

/-- The tokenizer `get_first_word`: first meaningful word of a pipeline stage. -/
def getFirstWord (cmd : Str) (filtered : List Str) : Option Str :=
  firstWordAux (asciiWords cmd) filtered

/-! ## Pipeline splitter: `SplitCommands` (src/shared/command_parse.rs) -/

/-- One collected run of the `SplitCommands` iterator: scan for a `|` with
both quote-parity flags closed; flags are reset at the start of each stage,
as each call of `next` starts a fresh scan of the remainder.  A trailing
empty remainder produces no further stage (`next` returns `None` there). -/
def splitCmdsGo : Str → Bool → Bool → Str → List Str
  | [], _, _, acc => [acc.reverse]
  | c :: cs, sq, dq, acc =>
    if c = '\'' then splitCmdsGo cs (!sq) dq (c :: acc)
    else if c = '"' then splitCmdsGo cs sq (!dq) (c :: acc)
    else if c = '|' ∧ sq = false ∧ dq = false then
      acc.reverse :: (if cs = [] then [] else splitCmdsGo cs false false [])
    else splitCmdsGo cs sq dq (c :: acc)

/-- All stages yielded by `SplitCommands::new(s)`, in order. -/
def splitCommands (s : Str) : List Str :=
  if s = [] then [] else splitCmdsGo s false false []

/-- The split described by the specification's words: split at every `|`
whose single- and double-quote parity flags are both closed, keeping every
(possibly empty) stage. -/
def claimSplitGo : Str → Bool → Bool → Str → List Str
  | [], _, _, acc => [acc.reverse]
  | c :: cs, sq, dq, acc =>
    if c = '\'' then claimSplitGo cs (!sq) dq (c :: acc)
    else if c = '"' then claimSplitGo cs sq (!dq) (c :: acc)
    else if c = '|' ∧ sq = false ∧ dq = false then acc.reverse :: claimSplitGo cs sq dq []
    else claimSplitGo cs sq dq (c :: acc)

/-- Split at all closed-parity pipes per the specification's wording. -/
def claimSplit (s : Str) : List Str := claimSplitGo s false false []

/-- Drop a final empty stage, if present. -/
def dropTrailEmptyStage : List Str → List Str
  | [] => []
  | [x] => if x = [] then [] else [x]
  | x :: y :: ys => x :: dropTrailEmptyStage (y :: ys)

/-- Concatenate stages with a single `|` between consecutive stages. -/
def joinPipes : List Str → Str
  | [] => []
  | [x] => x
  | x :: y :: ys => x ++ '|' :: joinPipes (y :: ys)

/-! ## Aggregator: frequency map (`increment_count`) -/

/-- FrequencyMap: association list from command name to count. -/
abbrev FreqMap := List (Str × Nat)

/-- The aggregator's `increment_count`: bump an existing key by one or
insert it with count one. -/
def freqIncr : FreqMap → Str → FreqMap
  | [], w => [(w, 1)]
  | (k, v) :: rest, w =>
    if k = w then (k, v + 1) :: rest else (k, v) :: freqIncr rest w

/-- The keys of a frequency map. -/
def freqKeys (m : FreqMap) : List Str := m.map (fun p => p.1)

/-- Fold `get_first_word` over a list of pipeline stages, incrementing the
count for every stage that yields a command name. -/
def foldFirstWords (filtered : List Str) (m : FreqMap) (parts : List Str) : FreqMap :=
  parts.foldl
    (fun m sub =>
      match getFirstWord sub filtered with
      | some w => freqIncr m w
      | none => m) m

/-- The simple readers' `count_commands` (src/history/simple_history.rs):
split on pipes via `SplitCommands` when history mode is on and the line
contains a pipe, otherwise tokenize the whole line. -/
def countCommands (m : FreqMap) (line : Str) (filtered : List Str) (nh : Bool) : FreqMap :=
  if !nh && containsChar line '|' then foldFirstWords filtered m (splitCommands line)
  else
    match getFirstWord line filtered with
    | some w => freqIncr m w
    | none => m

/-! ## Shell reader (src/history/shell.rs) -/

/-- The scan of `clean_line`: replace every pipe that lies inside single or
double quotes with a space, toggling each quote flag independently. -/
def cleanLineGo : Str → Bool → Bool → Str
  | [], _, _ => []
  | c :: cs, sq, dq =>
    if c = '\'' then c :: cleanLineGo cs (!sq) dq
    else if c = '"' then c :: cleanLineGo cs sq (!dq)
    else if c = '|' ∧ (sq = true ∨ dq = true) then ' ' :: cleanLineGo cs sq dq
    else c :: cleanLineGo cs sq dq

/-- Mask quoted pipes in a line (`clean_line`). -/
def cleanLine (s : Str) : Str := cleanLineGo s false false

/-- Scanner for Rust `str::split(sep)`: split at every separator, keeping
empty fragments. -/
def splitAllGo (sep : Char) : Str → Str → List Str
  | [], acc => [acc.reverse]
  | c :: cs, acc =>
    if c = sep then acc.reverse :: splitAllGo sep cs [] else splitAllGo sep cs (c :: acc)

/-- Rust `str::split(sep)` collected into a list. -/
def splitAllChar (sep : Char) (s : Str) : List Str := splitAllGo sep s []

/-- The shell reader's own `count_commands`: when history mode is on and the
line has a pipe, mask quoted pipes with `clean_line` (only when a quote
character is present) and split at every remaining pipe. -/
def countCommandsShell (m : FreqMap) (line : Str) (filtered : List Str) (nh : Bool) :
    FreqMap :=
  if containsChar line '|' && !nh then
    let parts :=
      if containsChar line '\'' || containsChar line '"' then
        splitAllChar '|' (cleanLine line)
      else splitAllChar '|' line
    foldFirstWords filtered m parts
  else
    match getFirstWord line filtered with
    | some w => freqIncr m w
    | none => m

/-- Content after the first `;` of a line (zsh extended metadata stripping). -/
def afterFirstSemi (s : Str) : Str := (s.dropWhile (fun c => c != ';')).drop 1

/-- The shell reader's `process_line`: returns the content handed to
`count_commands` (if any) together with the new skip state.  A `": "` line
with no `;` is malformed metadata: it extracts nothing and sets the skip
state (an early return in the source).  Otherwise the source's match on
(skip, metadata-without-semicolon, trailing-backslash) runs with the second
component necessarily false. -/
def shellProcessLine (line : Str) (skip : Bool) : Option Str × Bool :=
  let isZsh := startsStr line (strL (r": "))
  if isZsh && !containsChar line ';' then (none, true)
  else
    let actual := if isZsh then afterFirstSemi line else line
    match skip, endsC actual '\\' with
    | false, false => (some actual, false)
    | false, true => (some actual, true)
    | true, true => (none, true)
    | true, false => (none, false)

/-- The per-line transition table as the (amended) specification words it:
malformed metadata always moves to AwaitingContinuation without extracting;
otherwise the stripped content is extracted exactly when the state is
Normal, and the next state is AwaitingContinuation exactly when the content
ends with a backslash. -/
def shellSpecStep (line : Str) (skip : Bool) : Option Str × Bool :=
  if startsStr line (strL (r": ")) && !containsChar line ';' then (none, true)
  else
    let content := if startsStr line (strL (r": ")) then afterFirstSemi line else line
    if skip then (none, endsC content '\\')
    else (some content, endsC content '\\')

/-- One shell-reader step on a decoded, end-trimmed line: run
`process_line` and fold any extracted content into the map. -/
def shellStepLine (filtered : List Str) (nh : Bool) (st : FreqMap × Bool) (line : Str) :
    FreqMap × Bool :=
  match shellProcessLine line st.2 with
  | (some content, sk) => (countCommandsShell st.1 content filtered nh, sk)
  | (none, sk) => (st.1, sk)

/-! ## UTF-8 validation and decoding (Rust `std::str::from_utf8`) -/

/-- One step/state validating decoder per `std::str::from_utf8` (the shape
of core's `run_utf8_validation` loop): `need` counts the continuation bytes
still expected, `cp` the partially accumulated code point, and `lo`/`hi`
bound the next continuation byte (the first continuation byte's bounds
depend on the lead byte, excluding overlong encodings, surrogates and code
points above U+10FFFF). -/
def utf8Run : List Nat → Nat → Nat → Nat → Nat → Option (List Char)
  | [], 0, _, _, _ => some []
  | [], _ + 1, _, _, _ => none
  | b :: rest, 0, _, _, _ =>
    if b ≤ 0x7F then (utf8Run rest 0 0 0 0).map (fun cs => Char.ofNat b :: cs)
    else if 0xC2 ≤ b ∧ b ≤ 0xDF then utf8Run rest 1 (b - 0xC0) 0x80 0xBF
    else if 0xE0 ≤ b ∧ b ≤ 0xEF then
      utf8Run rest 2 (b - 0xE0) (if b = 0xE0 then 0xA0 else 0x80)
        (if b = 0xED then 0x9F else 0xBF)
    else if 0xF0 ≤ b ∧ b ≤ 0xF4 then
      utf8Run rest 3 (b - 0xF0) (if b = 0xF0 then 0x90 else 0x80)
        (if b = 0xF4 then 0x8F else 0xBF)
    else none
  | b :: rest, 1, cp, lo, hi =>
    if lo ≤ b ∧ b ≤ hi then
      (utf8Run rest 0 0 0 0).map (fun cs => Char.ofNat (cp * 0x40 + (b - 0x80)) :: cs)
    else none
  | b :: rest, need + 2, cp, lo, hi =>
    if lo ≤ b ∧ b ≤ hi then utf8Run rest (need + 1) (cp * 0x40 + (b - 0x80)) 0x80 0xBF
    else none

/-- Strict UTF-8 decoding of a byte sequence, per `std::str::from_utf8`:
rejects truncated sequences, stray continuation bytes, overlong encodings,
surrogates and code points above U+10FFFF. -/
def utf8Decode (l : List Nat) : Option (List Char) := utf8Run l 0 0 0 0

/-! ## Shell reader ingestion paths (src/history/shell.rs) -/

/-- Scanner for `slice::split(b'\n')`: chunks between newline bytes, the
newline itself not included; an empty input yields one empty chunk. -/
def splitNlGo : List Nat → List Nat → List (List Nat)
  | [], acc => [acc.reverse]
  | b :: rest, acc =>
    if b = 10 then acc.reverse :: splitNlGo rest [] else splitNlGo rest (b :: acc)

/-- Rust `bytes.split(|&b| b == b'\n')` collected into a list. -/
def splitOnNl (l : List Nat) : List (List Nat) := splitNlGo l []

/-- Scanner for the `read_until(b'\n')` loop: chunks keep their trailing
newline byte; a final chunk without newline is kept; empty input yields no
chunk. -/
def readerChunksGo : List Nat → List Nat → List (List Nat)
  | [], acc => if acc = [] then [] else [acc.reverse]
  | b :: rest, acc =>
    if b = 10 then (acc.reverse ++ [10]) :: readerChunksGo rest []
    else readerChunksGo rest (b :: acc)

/-- The buffered reader's line chunks of a byte stream. -/
def readerChunks (l : List Nat) : List (List Nat) := readerChunksGo l []

/-- Process one raw chunk of the shell reader: decode it (skipping it
unchanged on invalid UTF-8), trim the line end and take a `process_line`
step. -/
def shellChunkStep (filtered : List Str) (nh : Bool) (st : FreqMap × Bool)
    (chunk : List Nat) : FreqMap × Bool :=
  match utf8Decode chunk with
  | none => st
  | some s => shellStepLine filtered nh st (trimLineEnd s)

/-- Whole-buffer ingestion `count_from_bytes` of the shell reader. -/
def countFromBytesShell (bytes : List Nat) (filtered : List Str) (nh : Bool) : FreqMap :=
  ((splitOnNl bytes).foldl (shellChunkStep filtered nh) ([], false)).1

/-- Streaming ingestion `count_from_reader` of the shell reader. -/
def countFromReaderShell (bytes : List Nat) (filtered : List Str) (nh : Bool) : FreqMap :=
  ((readerChunks bytes).foldl (shellChunkStep filtered nh) ([], false)).1

/-! ## Fish reader (src/history/fish.rs) -/

/-- Byte-level test matching a pattern at the start of a byte line. -/
def startsBytes : List Nat → List Nat → Bool
  | _, [] => true
  | [], _ :: _ => false
  | b :: bs, p :: ps => b == p && startsBytes bs ps

/-- `is_ascii_metadata_line`: an all-ASCII line beginning with one of the
three fish metadata markers. -/
def isAsciiMetadataLine (lb : List Nat) : Bool :=
  lb.all (fun b => decide (b ≤ 0x7F)) &&
    (startsBytes lb (bytesOf (r"  when: ")) || startsBytes lb (bytesOf (r"  paths:")) ||
      startsBytes lb (bytesOf (r"  - ")))

/-- The fish reader's `process_line` on a decoded, end-trimmed line: start a
new in-progress command on a `- cmd: ` line (flushing any previous one),
merge a continuation line into a backslash-terminated in-progress command,
flush on a metadata line, and otherwise leave the state unchanged. -/
def fishProcessLine (line : Str) (cur : Str) (m : FreqMap) (filtered : List Str)
    (nh : Bool) : Str × FreqMap :=
  match stripPre line (strL (r"- cmd: ")) with
  | some cmd =>
    if cur ≠ [] then (cmd, countCommands m cur filtered nh) else (cmd, m)
  | none =>
    if cur ≠ [] then
      if endsC cur '\\' ∧ startsStr line (strL (r"  ")) = true ∧
          startsStr line (strL (r"  when: ")) = false ∧
          startsStr line (strL (r"  paths:")) = false ∧
          startsStr line (strL (r"  - ")) = false then
        (rustTrimEnd cur.dropLast ++ ' ' :: rustTrimStart line, m)
      else if startsStr line (strL (r"  when: ")) ∨ startsStr line (strL (r"  paths:")) ∨
          startsStr line (strL (r"  - ")) then
        ([], countCommands m cur filtered nh)
      else (cur, m)
    else (cur, m)

/-- One step of the fish reader's `count_from_bytes` loop over a raw byte
line: an ASCII metadata line flushes the in-progress command before any
decoding; an undecodable line is skipped; otherwise the decoded and trimmed
line goes through `process_line`. -/
def fishStepB (filtered : List Str) (nh : Bool) (st : Str × FreqMap) (lb : List Nat) :
    Str × FreqMap :=
  if st.1 ≠ [] ∧ isAsciiMetadataLine lb = true then
    ([], countCommands st.2 st.1 filtered nh)
  else
    match utf8Decode lb with
    | none => st
    | some s => fishProcessLine (trimLineEnd s) st.1 st.2 filtered nh

/-- The fish reader's `count_from_bytes` over a stream already cut into
physical byte lines, including the end-of-stream flush. -/
def fishCountBytes (lines : List (List Nat)) (filtered : List Str) (nh : Bool) : FreqMap :=
  let st := lines.foldl (fishStepB filtered nh) ([], [])
  if st.1 ≠ [] then countCommands st.2 st.1 filtered nh else st.2

/-! ## Simple line-oriented reader (src/history/simple_history.rs) -/

/-- One line step of the simple reader `count_from_file`: skip undecodable
lines, skip blank lines and lines matched by the dialect's skip predicate,
count the rest. -/
def simpleStep (skipLine : Str → Bool) (filtered : List Str) (nh : Bool) (m : FreqMap)
    (lb : List Nat) : FreqMap :=
  match utf8Decode lb with
  | none => m
  | some s =>
    let line := trimLineEnd s
    if rustTrim line = [] ∨ skipLine line = true then m
    else countCommands m line filtered nh

/-- The simple reader's ingestion over a stream cut into byte lines. -/
def simpleCountLines (skipLine : Str → Bool) (filtered : List Str) (nh : Bool)
    (lines : List (List Nat)) : FreqMap :=
  lines.foldl (simpleStep skipLine filtered nh) []

/-! ## Dialect detector (src/history/detect.rs) -/

/-- The two history dialects the detector can choose. -/
inductive HistoryFormat where
  | Shell : HistoryFormat
  | Fish : HistoryFormat
deriving DecidableEq, Repr

/-- Score of one inspected line: the added (fish, shell) points, decided by
the first matching rule in source order. -/
def linePoints (line : Str) : Nat × Nat :=
  let trimmed := rustTrim line
  if startsStr trimmed (strL (r"- cmd: ")) then (4, 0)
  else if startsStr trimmed (strL (r"when: ")) || startsStr trimmed (strL (r"paths:")) then
    (2, 0)
  else if startsStr line (strL (r"  when: ")) || startsStr line (strL (r"  paths: ")) ||
      startsStr line (strL (r"  - ")) then (1, 0)
  else if startsStr line (strL (r": ")) && containsChar line ';' then (0, 3)
  else (0, 1)

/-- The detector's scan loop: skip undecodable and blank lines, score the
others and stop after the 64th inspected line. -/
def detectGo : Nat → Nat → Nat → List (List Nat) → HistoryFormat
  | fish, shell, _, [] => if fish > shell then .Fish else .Shell
  | fish, shell, inspected, lb :: rest =>
    match utf8Decode lb with
    | none => detectGo fish shell inspected rest
    | some s =>
      let line := dropCR s
      if rustTrim line = [] then detectGo fish shell inspected rest
      else
        let pts := linePoints line
        if inspected + 1 ≥ 64 then
          (if fish + pts.1 > shell + pts.2 then .Fish else .Shell)
        else detectGo (fish + pts.1) (shell + pts.2) (inspected + 1) rest

/-- `detect_history_format` on a stream already cut into physical byte lines. -/
def detectFromLines (lines : List (List Nat)) : HistoryFormat :=
  detectGo 0 0 0 lines

/-- One decodable, non-blank line as the detector sees it, or `none`. -/
def inspectOne (lb : List Nat) : Option Str :=
  match utf8Decode lb with
  | none => none
  | some s =>
    let line := dropCR s
    if rustTrim line = [] then none else some line

/-- The first 64 lines the detector actually inspects. -/
def inspectedLines (lines : List (List Nat)) : List Str :=
  (lines.filterMap inspectOne).take 64

/-- Total fish score of the inspected lines. -/
def fishTotal (lines : List (List Nat)) : Nat :=
  ((inspectedLines lines).map (fun l => (linePoints l).1)).sum

/-- Total shell score of the inspected lines. -/
def shellTotal (lines : List (List Nat)) : Nat :=
  ((inspectedLines lines).map (fun l => (linePoints l).2)).sum

/-! ## Bar segment renderer (src/bar.rs) -/

/-- Rust `f32::round`: round half away from zero.  The floating products of
`render_bar_segment` are modelled exactly over the rationals. -/
def rustRound (q : ℚ) : ℤ := if 0 ≤ q then ⌊q + 1 / 2⌋ else ⌈q - 1 / 2⌉

/-- The three segment widths (unfilled, semi-filled, filled) computed by
`render_bar_segment`; the `as usize` casts saturate negatives at zero and
the `usize` subtractions are the truncating subtractions of `Nat`. -/
def renderBarSegmentCounts (perc invCumuPerc : ℚ) (barSize : ℕ)
    (showCumu showPerc : Bool) : ℕ × ℕ × ℕ :=
  let dec := perc / 100
  let invCumuDec := invCumuPerc / 100
  match showCumu, showPerc with
  | true, true =>
    let semifilled := (rustRound ((invCumuDec - dec) * barSize)).toNat
    let filled := (rustRound (dec * barSize)).toNat
    let semifilled := if filled + semifilled > barSize then barSize - filled else semifilled
    let unfilled := min (barSize - filled - semifilled) barSize
    (unfilled, semifilled, filled)
  | false, true =>
    let filled := (rustRound (dec * barSize)).toNat
    let unfilled := min (barSize - filled) barSize
    (unfilled, 0, filled)
  | true, false =>
    let semifilled := (rustRound (invCumuDec * barSize)).toNat
    let unfilled := min (barSize - semifilled) barSize
    (unfilled, semifilled, 0)
  | false, false => (0, 0, 0)

/-! ## Helper lemmas on the pipeline splitter -/

theorem claimSplitGo_ne_nil (cs : Str) : ∀ (sq dq : Bool) (acc : Str),
    claimSplitGo cs sq dq acc ≠ [] := by
  induction cs with
  | nil => intro sq dq acc; simp [claimSplitGo]
  | cons c cs ih =>
    intro sq dq acc
    simp only [claimSplitGo]
    by_cases h1 : c = '\''
    · simp only [if_pos h1]; exact ih _ _ _
    by_cases h2 : c = '"'
    · simp only [if_neg h1, if_pos h2]; exact ih _ _ _
    by_cases h3 : c = '|' ∧ sq = false ∧ dq = false
    · simp only [if_neg h1, if_neg h2, if_pos h3]; simp
    · simp only [if_neg h1, if_neg h2, if_neg h3]; exact ih _ _ _

theorem splitCmdsGo_ne_nil (cs : Str) : ∀ (sq dq : Bool) (acc : Str),
    splitCmdsGo cs sq dq acc ≠ [] := by
  induction cs with
  | nil => intro sq dq acc; simp [splitCmdsGo]
  | cons c cs ih =>
    intro sq dq acc
    simp only [splitCmdsGo]
    by_cases h1 : c = '\''
    · simp only [if_pos h1]; exact ih _ _ _
    by_cases h2 : c = '"'
    · simp only [if_neg h1, if_pos h2]; exact ih _ _ _
    by_cases h3 : c = '|' ∧ sq = false ∧ dq = false
    · simp only [if_neg h1, if_neg h2, if_pos h3]; simp
    · simp only [if_neg h1, if_neg h2, if_neg h3]; exact ih _ _ _

theorem dropTrail_cons (x : Str) (l : List Str) (h : l ≠ []) :
    dropTrailEmptyStage (x :: l) = x :: dropTrailEmptyStage l := by
  cases l with
  | nil => exact absurd rfl h
  | cons y ys => rfl

theorem joinPipes_cons (x : Str) (l : List Str) (h : l ≠ []) :
    joinPipes (x :: l) = x ++ '|' :: joinPipes l := by
  cases l with
  | nil => exact absurd rfl h
  | cons y ys => rfl

theorem splitCmdsGo_eq_dropTrail (cs : Str) : ∀ (sq dq : Bool) (acc : Str),
    cs ≠ [] ∨ acc ≠ [] →
    splitCmdsGo cs sq dq acc = dropTrailEmptyStage (claimSplitGo cs sq dq acc) := by
  induction cs with
  | nil =>
    intro sq dq acc h
    have hacc : acc ≠ [] := by
      rcases h with h | h
      · exact absurd rfl h
      · exact h
    simp only [splitCmdsGo, claimSplitGo, dropTrailEmptyStage]
    rw [if_neg (by simpa using hacc)]
  | cons c cs ih =>
    intro sq dq acc _
    simp only [splitCmdsGo, claimSplitGo]
    by_cases h1 : c = '\''
    · simp only [if_pos h1]; exact ih _ _ _ (Or.inr (by simp))
    by_cases h2 : c = '"'
    · simp only [if_neg h1, if_pos h2]; exact ih _ _ _ (Or.inr (by simp))
    by_cases h3 : c = '|' ∧ sq = false ∧ dq = false
    · simp only [if_neg h1, if_neg h2, if_pos h3]
      by_cases h4 : cs = []
      · subst h4
        simp [claimSplitGo, dropTrailEmptyStage]
      · rw [dropTrail_cons _ _ (claimSplitGo_ne_nil _ _ _ _), if_neg h4]
        obtain ⟨hc, hsq, hdq⟩ := h3
        subst hsq; subst hdq
        exact congrArg (List.reverse acc :: ·) (ih _ _ _ (Or.inl h4))
    · simp only [if_neg h1, if_neg h2, if_neg h3]; exact ih _ _ _ (Or.inr (by simp))

theorem splitCommands_eq_claim (s : Str) :
    splitCommands s = dropTrailEmptyStage (claimSplit s) := by
  by_cases h : s = []
  · subst h; rfl
  · rw [splitCommands, if_neg h, claimSplit]
    exact splitCmdsGo_eq_dropTrail _ _ _ _ (Or.inl h)

theorem joinPipes_splitCmdsGo (cs : Str) : ∀ (sq dq : Bool) (acc : Str),
    joinPipes (splitCmdsGo cs sq dq acc) = acc.reverse ++ cs ∨
      acc.reverse ++ cs = joinPipes (splitCmdsGo cs sq dq acc) ++ ['|'] := by
  induction cs with
  | nil =>
    intro sq dq acc
    left
    simp [splitCmdsGo, joinPipes]
  | cons c cs ih =>
    intro sq dq acc
    simp only [splitCmdsGo]
    by_cases h1 : c = '\''
    · simp only [if_pos h1]
      rcases ih (!sq) dq (c :: acc) with h | h
      · left; rw [h]; simp
      · right; rw [← h]; simp
    by_cases h2 : c = '"'
    · simp only [if_neg h1, if_pos h2]
      rcases ih sq (!dq) (c :: acc) with h | h
      · left; rw [h]; simp
      · right; rw [← h]; simp
    by_cases h3 : c = '|' ∧ sq = false ∧ dq = false
    · simp only [if_neg h1, if_neg h2, if_pos h3]
      obtain ⟨hc, hsq, hdq⟩ := h3
      subst hc
      by_cases h4 : cs = []
      · subst h4
        right
        simp [joinPipes]
      · rw [if_neg h4, joinPipes_cons _ _ (splitCmdsGo_ne_nil _ _ _ _)]
        rcases ih false false [] with h | h
        · left
          rw [h]; simp
        · right
          simp only [List.reverse_nil, List.nil_append] at h
          conv_lhs => rw [h]
          simp
    · simp only [if_neg h1, if_neg h2, if_neg h3]
      rcases ih sq dq (c :: acc) with h | h
      · left; rw [h]; simp
      · right; rw [← h]; simp

theorem mem_splitCmdsGo (cs : Str) : ∀ (sq dq : Bool) (acc t : Str),
    t ∈ splitCmdsGo cs sq dq acc → ∃ u v : Str, u ++ (t ++ v) = acc.reverse ++ cs := by
  induction cs with
  | nil =>
    intro sq dq acc t ht
    simp only [splitCmdsGo, List.mem_singleton] at ht
    subst ht
    exact ⟨[], [], by simp⟩
  | cons c cs ih =>
    intro sq dq acc t ht
    simp only [splitCmdsGo] at ht
    by_cases h1 : c = '\''
    · rw [if_pos h1] at ht
      obtain ⟨u, v, huv⟩ := ih _ _ _ _ ht
      exact ⟨u, v, by simpa using huv⟩
    by_cases h2 : c = '"'
    · rw [if_neg h1, if_pos h2] at ht
      obtain ⟨u, v, huv⟩ := ih _ _ _ _ ht
      exact ⟨u, v, by simpa using huv⟩
    by_cases h3 : c = '|' ∧ sq = false ∧ dq = false
    · rw [if_neg h1, if_neg h2, if_pos h3] at ht
      obtain ⟨hc, hsq, hdq⟩ := h3
      subst hc
      rcases List.mem_cons.mp ht with h | h
      · subst h
        exact ⟨[], '|' :: cs, by simp⟩
      · by_cases h4 : cs = []
        · rw [if_pos h4] at h; simp at h
        · rw [if_neg h4] at h
          obtain ⟨u, v, huv⟩ := ih _ _ _ _ h
          refine ⟨acc.reverse ++ '|' :: u, v, ?_⟩
          simp only [List.reverse_nil, List.nil_append] at huv
          simp [huv]
    · rw [if_neg h1, if_neg h2, if_neg h3] at ht
      obtain ⟨u, v, huv⟩ := ih _ _ _ _ ht
      exact ⟨u, v, by simpa using huv⟩

/-! ## Claim C2 -/

/-- C2: on the seven concrete §8 inputs, `get_first_word` returns exactly
`apt`, `cmd`, `$EDITOR`, `ls`, `systemctl`, `ls` and none, respectively. -/
theorem c2_tokenizer_examples :
    getFirstWord (strL (r"sudo apt update")) [strL (r"sudo"), strL (r"doas")] =
        some (strL (r"apt")) ∧
    getFirstWord (strL (r"FOO=bar cmd arg")) [] = some (strL (r"cmd")) ∧
    getFirstWord (strL (r"$EDITOR file.txt")) [] = some (strL (r"$EDITOR")) ∧
    getFirstWord (strL (r"\ls -la")) [] = some (strL (r"ls")) ∧
    getFirstWord (strL (r"doas -- systemctl stop sshd")) [strL (r"sudo"), strL (r"doas")] =
        some (strL (r"systemctl")) ∧
    getFirstWord (strL (r"/bin/ls -la")) [] = some (strL (r"ls")) ∧
    getFirstWord (strL (r"# comment")) [] = none := by
  decide

/-! ## Claim C6 -/

/-- C6 counterexample: on the input `a|`, whose final `|` has both quote
flags closed, `SplitCommands` yields `["a"]` while splitting at that pipe
per the claim's words yields `["a", ""]` — the trailing empty stage is
dropped, so the claim as stated fails at this input. -/
theorem c6_counterexample :
    splitCommands (strL (r"a|")) = [strL (r"a")] ∧
    claimSplit (strL (r"a|")) = [strL (r"a"), []] ∧
    [strL (r"a")] ≠ [strL (r"a"), []] := by
  decide

/-- C6 (amended): `SplitCommands` yields exactly the substrings obtained by
splitting at the `|` characters at which both quote-parity flags are
closed, except that a final empty substring (arising when the input is
empty or ends with a splitting `|`) is omitted; the two concrete example
splits hold exactly as claimed. -/
theorem c6_split_refines_claim :
    (∀ s : Str, splitCommands s = dropTrailEmptyStage (claimSplit s)) ∧
    splitCommands (strL (r"ls | grep foo")) = [strL (r"ls "), strL (r" grep foo")] ∧
    splitCommands (strL (r"echo 'a | b' | wc")) =
      [strL (r"echo 'a | b' "), strL (r" wc")] :=
  ⟨splitCommands_eq_claim, by decide, by decide⟩

/-! ## Claim C10 -/

/-- C10 counterexample: for the input `a|` the concatenation of the stages
yielded by `SplitCommands` is `a`, not the original string — the split is
not lossless when the input ends with an unquoted `|`. -/
theorem c10_counterexample :
    joinPipes (splitCommands (strL (r"a|"))) = strL (r"a") ∧
    strL (r"a") ≠ strL (r"a|") := by
  decide

/-- C10 (amended): the stage sequence of `SplitCommands` is finite, the
empty string yields the empty sequence, every stage is a contiguous
substring of the input, and concatenating the stages with `|` reconstructs
the input exactly — except when the input ends with a splitting `|`, in
which case it reconstructs the input minus that final `|`. -/
theorem c10_reconstruction :
    (∀ s : Str, joinPipes (splitCommands s) = s ∨
      s = joinPipes (splitCommands s) ++ ['|']) ∧
    splitCommands [] = [] ∧
    (∀ s : Str, ∀ t ∈ splitCommands s, ∃ u v : Str, u ++ (t ++ v) = s) := by
  refine ⟨?_, rfl, ?_⟩
  · intro s
    by_cases h : s = []
    · subst h; left; rfl
    · rw [splitCommands, if_neg h]
      simpa using joinPipes_splitCmdsGo s false false []
  · intro s t ht
    by_cases h : s = []
    · subst h; simp [splitCommands] at ht
    · rw [splitCommands, if_neg h] at ht
      simpa using mem_splitCmdsGo s false false [] t ht

/-- C10 witness: the reconstruction and contiguity statements applied at
the concrete input `ls | grep foo` and its stage ` grep foo`. -/
theorem c10_reconstruction_witness :
    (joinPipes (splitCommands (strL (r"ls | grep foo"))) = strL (r"ls | grep foo") ∨
      strL (r"ls | grep foo") =
        joinPipes (splitCommands (strL (r"ls | grep foo"))) ++ ['|']) ∧
    (∃ u v : Str, u ++ (strL (r" grep foo") ++ v) = strL (r"ls | grep foo")) :=
  ⟨c10_reconstruction.1 (strL (r"ls | grep foo")),
    c10_reconstruction.2.2 (strL (r"ls | grep foo")) (strL (r" grep foo")) (by decide)⟩

/-! ## Helper lemmas for the tokenizer invariant (C1) -/

theorem firstWordAux_inv (ws : List Str) : ∀ (filtered : List Str) (w : Str),
    firstWordAux ws filtered = some w → w ≠ [] ∧ w ∉ filtered ∧ w ≠ strL (r"--") := by
  induction ws with
  | nil => intro filtered w h; simp [firstWordAux] at h
  | cons x ws ih =>
    intro filtered w h
    simp only [firstWordAux] at h
    by_cases c1 : x = strL (r"--")
    · rw [if_pos c1] at h; exact ih _ _ h
    rw [if_neg c1] at h
    by_cases c2 : startsC x '#' = true
    · rw [if_pos c2] at h; simp at h
    rw [if_neg c2] at h
    by_cases c3 : startsC x '-' = true
    · rw [if_pos c3] at h; exact ih _ _ h
    rw [if_neg c3] at h
    by_cases c4 : afterLastSlash (beforeBS (dropBS x)) = []
    · rw [if_pos c4] at h; exact ih _ _ h
    rw [if_neg c4] at h
    by_cases c5 : startsC (afterLastSlash (beforeBS (dropBS x))) '#' = true
    · rw [if_pos c5] at h; simp at h
    rw [if_neg c5] at h
    by_cases c6 : startsC (afterLastSlash (beforeBS (dropBS x))) '-' = true
    · rw [if_pos c6] at h; exact ih _ _ h
    rw [if_neg c6] at h
    by_cases c7 : afterLastSlash (beforeBS (dropBS x)) ∈ filtered
    · rw [if_pos c7] at h; exact ih _ _ h
    rw [if_neg c7] at h
    by_cases c8 : (!startsC (afterLastSlash (beforeBS (dropBS x))) '$' &&
        containsChar (afterLastSlash (beforeBS (dropBS x))) '=') = true
    · rw [if_pos c8] at h; exact ih _ _ h
    rw [if_neg c8] at h
    injection h with h
    subst h
    refine ⟨c4, c7, ?_⟩
    intro heq
    apply c6
    rw [heq]
    decide

theorem getFirstWord_inv (cmd : Str) (filtered : List Str) (w : Str)
    (h : getFirstWord cmd filtered = some w) :
    w ≠ [] ∧ w ∉ filtered ∧ w ≠ strL (r"--") :=
  firstWordAux_inv (asciiWords cmd) filtered w h

theorem freqKeys_incr (m : FreqMap) (w : Str) : ∀ k,
    k ∈ freqKeys (freqIncr m w) → k ∈ freqKeys m ∨ k = w := by
  induction m with
  | nil => intro k h; simp [freqIncr, freqKeys] at h; exact Or.inr h
  | cons p rest ih =>
    intro k h
    obtain ⟨a, v⟩ := p
    simp only [freqIncr] at h
    by_cases hw : a = w
    · rw [if_pos hw] at h
      simp only [freqKeys, List.map_cons, List.mem_cons] at h ⊢
      tauto
    · rw [if_neg hw] at h
      simp only [freqKeys, List.map_cons, List.mem_cons] at h ⊢
      rcases h with h | h
      · tauto
      · rcases ih k h with h2 | h2
        · exact Or.inl (Or.inr h2)
        · exact Or.inr h2

theorem freqKeys_foldFirstWords (parts : List Str) : ∀ (filtered : List Str) (m : FreqMap)
    (k : Str), k ∈ freqKeys (foldFirstWords filtered m parts) →
    k ∈ freqKeys m ∨ ∃ sub, getFirstWord sub filtered = some k := by
  induction parts with
  | nil => intro filtered m k h; exact Or.inl h
  | cons p ps ih =>
    intro filtered m k h
    simp only [foldFirstWords, List.foldl_cons] at h
    rcases ih filtered _ k h with h2 | h2
    · cases hg : getFirstWord p filtered with
      | none => rw [hg] at h2; exact Or.inl h2
      | some w =>
        rw [hg] at h2
        rcases freqKeys_incr m w k h2 with h3 | h3
        · exact Or.inl h3
        · exact Or.inr ⟨p, h3 ▸ hg⟩
    · exact Or.inr h2

theorem freqKeys_countCommands (m : FreqMap) (line : Str) (filtered : List Str)
    (nh : Bool) (k : Str) (h : k ∈ freqKeys (countCommands m line filtered nh)) :
    k ∈ freqKeys m ∨ ∃ sub, getFirstWord sub filtered = some k := by
  simp only [countCommands] at h
  by_cases hc : (!nh && containsChar line '|') = true
  · rw [if_pos hc] at h
    exact freqKeys_foldFirstWords _ filtered m k h
  · rw [if_neg hc] at h
    cases hg : getFirstWord line filtered with
    | none => rw [hg] at h; exact Or.inl h
    | some w =>
      rw [hg] at h
      rcases freqKeys_incr m w k h with h2 | h2
      · exact Or.inl h2
      · exact Or.inr ⟨line, h2 ▸ hg⟩

theorem keys_countFold_inv (lines : List Str) : ∀ (filtered : List Str) (nh : Bool)
    (m : FreqMap),
    (∀ k ∈ freqKeys m, k ≠ [] ∧ k ∉ filtered ∧ k ≠ strL (r"--")) →
    ∀ k ∈ freqKeys (lines.foldl (fun m line => countCommands m line filtered nh) m),
      k ≠ [] ∧ k ∉ filtered ∧ k ≠ strL (r"--") := by
  induction lines with
  | nil => intro filtered nh m hm k hk; exact hm k hk
  | cons l ls ih =>
    intro filtered nh m hm k hk
    simp only [List.foldl_cons] at hk
    refine ih filtered nh _ ?_ k hk
    intro k' hk'
    rcases freqKeys_countCommands m l filtered nh k' hk' with h | ⟨sub, hsub⟩
    · exact hm k' h
    · exact getFirstWord_inv sub filtered k' hsub

/-! ## Claim C1 -/

/-- C1: whenever `get_first_word` returns a name, that name is non-empty,
not a member of the filter set and not `--`; consequently every key of a
frequency map built by folding `count_commands` over any lines satisfies
the same three conditions. -/
theorem c1_canonical_name_invariant :
    (∀ (cmd : Str) (filtered : List Str) (w : Str),
      getFirstWord cmd filtered = some w →
      w ≠ [] ∧ w ∉ filtered ∧ w ≠ strL (r"--")) ∧
    (∀ (filtered : List Str) (nh : Bool) (lines : List Str) (k : Str),
      k ∈ freqKeys (lines.foldl (fun m line => countCommands m line filtered nh) []) →
      k ≠ [] ∧ k ∉ filtered ∧ k ≠ strL (r"--")) := by
  refine ⟨getFirstWord_inv, ?_⟩
  intro filtered nh lines k hk
  exact keys_countFold_inv lines filtered nh [] (by simp [freqKeys]) k hk

/-- C1 witness: the invariant applied to the tokenizer on `ls -la` and to a
frequency map built by `count_commands` from the lines `ls -la` and
`git status`. -/
theorem c1_canonical_name_invariant_witness :
    (strL (r"ls") ≠ [] ∧ strL (r"ls") ∉ [strL (r"sudo")] ∧ strL (r"ls") ≠ strL (r"--")) ∧
    (strL (r"git") ≠ [] ∧ strL (r"git") ∉ [strL (r"sudo")] ∧
      strL (r"git") ≠ strL (r"--")) :=
  ⟨c1_canonical_name_invariant.1 (strL (r"ls -la")) [strL (r"sudo")] (strL (r"ls"))
      (by decide),
    c1_canonical_name_invariant.2 [strL (r"sudo")] false
      [strL (r"ls -la"), strL (r"git status")] (strL (r"git")) (by decide)⟩

/-! ## Claim C3 -/

/-- C3 counterexample: in state AwaitingContinuation, the metadata line
`: 123:0` (starts with `: `, contains no `;`, does not end with a
backslash) keeps the state AwaitingContinuation, whereas the claim's 4-case
table demands a return to Normal for any line not ending with a
backslash. -/
theorem c3_counterexample :
    shellProcessLine (strL (r": 123:0")) true = (none, true) ∧
    endsC (strL (r": 123:0")) '\\' = false ∧
    ((none, true) : Option Str × Bool) ≠ (none, false) := by
  decide

/-- C3 (amended): `process_line` follows the claim's 4-case table with one
change — a `: `-prefixed line with no `;` extracts nothing and sets the
state to AwaitingContinuation from *both* states (it does not return an
AwaitingContinuation state to Normal); in all other cases the content used
is the text after the first `;` for zsh metadata lines and the line itself
otherwise, a Normal-state line extracts that content and the state becomes
AwaitingContinuation iff the content ends with a backslash, and an
AwaitingContinuation-state line is discarded, returning to Normal iff the
content does not end with a backslash. -/
theorem c3_process_line_table (line : Str) (skip : Bool) :
    shellProcessLine line skip = shellSpecStep line skip := by
  simp only [shellProcessLine, shellSpecStep]
  by_cases h1 : (startsStr line (strL (r": ")) && !containsChar line ';') = true
  · rw [if_pos h1, if_pos h1]
  · rw [if_neg h1, if_neg h1]
    cases skip with
    | false => cases h2 : endsC (if startsStr line (strL (r": ")) then afterFirstSemi line
        else line) '\\' <;> simp [h2]
    | true => cases h2 : endsC (if startsStr line (strL (r": ")) then afterFirstSemi line
        else line) '\\' <;> simp [h2]

/-! ## Claim C4 -/

/-- C4 counterexample: merging the in-progress command `a\` with the
continuation line `   x` (three leading spaces) produces `a x`, because the
source strips *all* leading whitespace of the continuation line; the
claim's rule — strip exactly the two leading spaces — would produce `a  x`
instead. -/
theorem c4_counterexample :
    fishProcessLine (strL (r"   x")) (strL (r"a\")) [] [] false = (strL (r"a x"), []) ∧
    strL (r"a x") ≠ strL (r"a  x") := by
  decide

/-- C4 (amended): while the in-progress fish command ends with a backslash,
a following non-metadata line starting with two spaces is merged by
removing the trailing backslash, trimming trailing whitespace, appending a
single space and then the new line's content with *all* its leading
whitespace stripped; the three-line input (`- cmd: doas -- \`,
`  systemctl stop sshd`, `  when: 123`) yields exactly the frequency map
`{systemctl: 1}` when `doas` is filtered — never `doas` or `--`. -/
theorem c4_fish_continuation (cur line : Str) (m : FreqMap) (filtered : List Str)
    (nh : Bool) (hbs : endsC cur '\\' = true) (h2 : startsStr line (strL (r"  ")) = true)
    (hw : startsStr line (strL (r"  when: ")) = false)
    (hp : startsStr line (strL (r"  paths:")) = false)
    (hd : startsStr line (strL (r"  - ")) = false) :
    fishProcessLine line cur m filtered nh =
      (rustTrimEnd cur.dropLast ++ ' ' :: rustTrimStart line, m) ∧
    fishCountBytes
        [bytesOf (r"- cmd: doas -- \"), bytesOf (r"  systemctl stop sshd"),
          bytesOf (r"  when: 123")]
        [strL (r"sudo"), strL (r"doas")] false = [(strL (r"systemctl"), 1)] := by
  constructor
  · have hcur : cur ≠ [] := by
      intro h
      rw [h] at hbs
      simp [endsC] at hbs
    have hpre : stripPre line (strL (r"- cmd: ")) = none := by
      cases line with
      | nil => simp [startsStr] at h2
      | cons a rest =>
        have ha : a = ' ' := by
          simp [startsStr, strL] at h2
          exact h2.1
        subst ha
        simp [stripPre, strL]
    rw [fishProcessLine, hpre]
    rw [if_pos hcur, if_pos ⟨hbs, h2, hw, hp, hd⟩]
  · decide

/-- C4 witness: the merge rule applied to the concrete in-progress command
`doas -- \` and continuation line `  systemctl stop sshd`, together with
the concrete three-line frequency-map computation. -/
theorem c4_fish_continuation_witness :
    fishProcessLine (strL (r"  systemctl stop sshd")) (strL (r"doas -- \")) []
        [strL (r"sudo"), strL (r"doas")] false =
      (rustTrimEnd (strL (r"doas -- \")).dropLast ++
        ' ' :: rustTrimStart (strL (r"  systemctl stop sshd")), []) ∧
    fishCountBytes
        [bytesOf (r"- cmd: doas -- \"), bytesOf (r"  systemctl stop sshd"),
          bytesOf (r"  when: 123")]
        [strL (r"sudo"), strL (r"doas")] false = [(strL (r"systemctl"), 1)] :=
  c4_fish_continuation (strL (r"doas -- \")) (strL (r"  systemctl stop sshd")) []
    [strL (r"sudo"), strL (r"doas")] false (by decide) (by decide) (by decide)
    (by decide) (by decide)

/-! ## Helper lemma for the detector (C5) -/

theorem detectGo_spec (lines : List (List Nat)) : ∀ (f s i : Nat), i < 64 →
    detectGo f s i lines =
      (if f + (((lines.filterMap inspectOne).take (64 - i)).map
            (fun l => (linePoints l).1)).sum >
          s + (((lines.filterMap inspectOne).take (64 - i)).map
            (fun l => (linePoints l).2)).sum
        then HistoryFormat.Fish else HistoryFormat.Shell) := by
  induction lines with
  | nil => intro f s i hi; simp [detectGo]
  | cons lb rest ih =>
    intro f s i hi
    simp only [detectGo]
    cases hu : utf8Decode lb with
    | none =>
      have hio : inspectOne lb = none := by simp [inspectOne, hu]
      rw [List.filterMap_cons_none hio]
      exact ih f s i hi
    | some sdec =>
      dsimp only
      by_cases ht : rustTrim (dropCR sdec) = []
      · have hio : inspectOne lb = none := by simp [inspectOne, hu, ht]
        rw [if_pos ht, List.filterMap_cons_none hio]
        exact ih f s i hi
      · have hio : inspectOne lb = some (dropCR sdec) := by simp [inspectOne, hu, ht]
        rw [if_neg ht, List.filterMap_cons_some hio]
        by_cases hbreak : i + 1 ≥ 64
        · have hie : i = 63 := by omega
          subst hie
          rw [if_pos hbreak]
          simp
        · rw [if_neg hbreak]
          rw [ih _ _ (i + 1) (by omega)]
          have h64 : 64 - i = (64 - (i + 1)) + 1 := by omega
          rw [h64, List.take_succ_cons]
          simp only [List.map_cons, List.sum_cons, Nat.add_assoc]

/-! ## Claim C5 -/

/-- C5: the detector inspects at most the first 64 non-empty decodable
lines (undecodable and blank lines are skipped without scoring), each
inspected line contributes exactly the points of the first matching rule,
and the result is Fish iff the accumulated fish score strictly exceeds the
shell score (a tie yields Shell); the result is a function of the stream's
line contents alone. -/
theorem c5_detector_spec (lines : List (List Nat)) :
    detectFromLines lines =
      (if fishTotal lines > shellTotal lines then HistoryFormat.Fish
        else HistoryFormat.Shell) := by
  have h := detectGo_spec lines 0 0 0 (by omega)
  simpa [detectFromLines, fishTotal, shellTotal, inspectedLines] using h

/-! ## Helper lemmas for the two shell ingestion paths (C7) -/

theorem utf8Run_append_nl (l : List Nat) : ∀ (need cp lo hi : Nat),
    need = 0 ∨ 0x80 ≤ lo →
    utf8Run (l ++ [10]) need cp lo hi =
      (utf8Run l need cp lo hi).map (fun cs => cs ++ ['\n']) := by
  induction l with
  | nil =>
    intro need cp lo hi hlo
    match need, hlo with
    | 0, _ =>
      simp only [List.nil_append, utf8Run]
      norm_num
    | 1, Or.inr hlo =>
      simp only [List.nil_append, utf8Run]
      rw [if_neg (by omega)]
      rfl
    | k + 2, Or.inr hlo =>
      simp only [List.nil_append, utf8Run]
      rw [if_neg (by omega)]
      rfl
  | cons b rest ih =>
    intro need cp lo hi hlo
    match need, hlo with
    | 0, _ =>
      simp only [List.cons_append, utf8Run, List.append_eq]
      by_cases h1 : b ≤ 0x7F
      · rw [if_pos h1, if_pos h1, ih 0 0 0 0 (Or.inl rfl)]
        cases utf8Run rest 0 0 0 0 <;> rfl
      rw [if_neg h1, if_neg h1]
      by_cases h2 : 0xC2 ≤ b ∧ b ≤ 0xDF
      · rw [if_pos h2, if_pos h2]
        exact ih 1 (b - 0xC0) 0x80 0xBF (Or.inr (by omega))
      rw [if_neg h2, if_neg h2]
      by_cases h3 : 0xE0 ≤ b ∧ b ≤ 0xEF
      · rw [if_pos h3, if_pos h3]
        refine ih 2 (b - 0xE0) _ _ (Or.inr ?_)
        split <;> omega
      rw [if_neg h3, if_neg h3]
      by_cases h4 : 0xF0 ≤ b ∧ b ≤ 0xF4
      · rw [if_pos h4, if_pos h4]
        refine ih 3 (b - 0xF0) _ _ (Or.inr ?_)
        split <;> omega
      rw [if_neg h4, if_neg h4]
      rfl
    | 1, Or.inr hlo =>
      simp only [List.cons_append, utf8Run, List.append_eq]
      by_cases h1 : lo ≤ b ∧ b ≤ hi
      · rw [if_pos h1, if_pos h1, ih 0 0 0 0 (Or.inl rfl)]
        cases utf8Run rest 0 0 0 0 <;> rfl
      · rw [if_neg h1, if_neg h1]
        rfl
    | k + 2, Or.inr hlo =>
      simp only [List.cons_append, utf8Run, List.append_eq]
      by_cases h1 : lo ≤ b ∧ b ≤ hi
      · rw [if_pos h1, if_pos h1]
        exact ih (k + 1) _ 0x80 0xBF (Or.inr (by omega))
      · rw [if_neg h1, if_neg h1]
        rfl

theorem utf8_append_nl (l : List Nat) :
    utf8Decode (l ++ [10]) = (utf8Decode l).map (fun cs => cs ++ ['\n']) :=
  utf8Run_append_nl l 0 0 0 0 (Or.inl rfl)

theorem trimLineEnd_nl (s : Str) : trimLineEnd (s ++ ['\n']) = trimLineEnd s := by
  have hp : ('\n' == '\n' || '\n' == '\r') = true := by decide
  simp [trimLineEnd, List.reverse_append, List.dropWhile_cons, hp]

theorem countCommandsShell_nil (m : FreqMap) (filtered : List Str) (nh : Bool) :
    countCommandsShell m [] filtered nh = m := by
  have hc : containsChar [] '|' = false := by decide
  have hg : getFirstWord [] filtered = none := by
    simp [getFirstWord, asciiWords, wordsGo, firstWordAux]
  simp [countCommandsShell, hc, hg]

theorem shellStep_empty (filtered : List Str) (nh : Bool) (st : FreqMap × Bool) :
    (shellStepLine filtered nh st []).1 = st.1 := by
  have hz : startsStr [] (strL (r": ")) = false := by decide
  have he : endsC [] '\\' = false := by decide
  obtain ⟨m, skip⟩ := st
  cases skip <;>
    simp [shellStepLine, shellProcessLine, hz, he, countCommandsShell_nil]

theorem shellChunkStep_nl (filtered : List Str) (nh : Bool) (st : FreqMap × Bool)
    (c : List Nat) : shellChunkStep filtered nh st (c ++ [10]) =
      shellChunkStep filtered nh st c := by
  simp only [shellChunkStep, utf8_append_nl]
  cases utf8Decode c with
  | none => rfl
  | some s => simp [trimLineEnd_nl]

theorem foldChunks_eq (filtered : List Str) (nh : Bool) (l : List Nat) :
    ∀ (acc : List Nat) (st : FreqMap × Bool),
    ((splitNlGo l acc).foldl (shellChunkStep filtered nh) st).1 =
      ((readerChunksGo l acc).foldl (shellChunkStep filtered nh) st).1 := by
  induction l with
  | nil =>
    intro acc st
    simp only [splitNlGo, readerChunksGo]
    by_cases h : acc = []
    · rw [if_pos h]
      subst h
      simp only [List.reverse_nil, List.foldl_cons, List.foldl_nil]
      have hd : utf8Decode ([] : List Nat) = some [] := by decide
      have ht : trimLineEnd [] = [] := by decide
      simp [shellChunkStep, hd, ht, shellStep_empty]
    · rw [if_neg h]
  | cons b rest ih =>
    intro acc st
    simp only [splitNlGo, readerChunksGo]
    by_cases hb : b = 10
    · rw [if_pos hb, if_pos hb]
      simp only [List.foldl_cons]
      rw [shellChunkStep_nl]
      exact ih [] _
    · rw [if_neg hb, if_neg hb]
      exact ih (b :: acc) st

/-! ## Claim C7 -/

/-- C7: for every byte sequence, filter list and history-mode flag, the
whole-buffer ingestion path `count_from_bytes` and the streaming path
`count_from_reader` of the shell reader build exactly the same frequency
map. -/
theorem c7_bytes_reader_equivalence (bytes : List Nat) (filtered : List Str) (nh : Bool) :
    countFromBytesShell bytes filtered nh = countFromReaderShell bytes filtered nh :=
  foldChunks_eq filtered nh bytes [] ([], false)

/-! ## Helper lemmas for undecodable-line recovery (C9) -/

theorem utf8_ascii_isSome (l : List Nat)
    (h : l.all (fun b => decide (b ≤ 0x7F)) = true) : (utf8Decode l).isSome = true := by
  induction l with
  | nil => decide
  | cons b rest ih =>
    simp only [List.all_cons, Bool.and_eq_true, decide_eq_true_eq] at h
    simp only [utf8Decode, utf8Run, if_pos h.1]
    simpa [Option.isSome_map] using ih h.2

theorem invalid_not_metadata (bad : List Nat) (hbad : utf8Decode bad = none) :
    isAsciiMetadataLine bad = false := by
  have hall : bad.all (fun b => decide (b ≤ 0x7F)) = false := by
    by_contra h
    have h2 := utf8_ascii_isSome bad (by revert h; cases bad.all (fun b => decide (b ≤ 0x7F)) <;> simp)
    rw [hbad] at h2
    simp at h2
  simp [isAsciiMetadataLine, hall]

theorem simpleStep_invalid (skipLine : Str → Bool) (filtered : List Str) (nh : Bool)
    (m : FreqMap) (bad : List Nat) (hbad : utf8Decode bad = none) :
    simpleStep skipLine filtered nh m bad = m := by
  simp [simpleStep, hbad]

theorem fishStepB_invalid (filtered : List Str) (nh : Bool) (st : Str × FreqMap)
    (bad : List Nat) (hbad : utf8Decode bad = none) :
    fishStepB filtered nh st bad = st := by
  have hmeta := invalid_not_metadata bad hbad
  simp [fishStepB, hmeta, hbad]

/-! ## Claim C9 -/

/-- C9: for the byte-level readers (the simple line reader and the fish
reader), a physical line that is not valid UTF-8 never aborts ingestion and
leaves the result exactly as if the line were absent: it changes no parser
state, and in particular never flushes or terminates an in-progress fish
command (the ASCII metadata check cannot match an undecodable line). -/
theorem c9_invalid_line_skipped (skipLine : Str → Bool) (filtered : List Str) (nh : Bool)
    (l1 l2 : List (List Nat)) (bad : List Nat) (hbad : utf8Decode bad = none) :
    simpleCountLines skipLine filtered nh (l1 ++ bad :: l2) =
      simpleCountLines skipLine filtered nh (l1 ++ l2) ∧
    fishCountBytes (l1 ++ bad :: l2) filtered nh = fishCountBytes (l1 ++ l2) filtered nh := by
  constructor
  · simp only [simpleCountLines, List.foldl_append, List.foldl_cons]
    rw [simpleStep_invalid skipLine filtered nh _ bad hbad]
  · simp only [fishCountBytes, List.foldl_append, List.foldl_cons]
    rw [fishStepB_invalid filtered nh _ bad hbad]

/-- C9 witness: the skip property applied with the undecodable line `[255]`
inserted between `ls` and nothing for the simple reader, and inside a fish
stream. -/
theorem c9_invalid_line_skipped_witness :
    simpleCountLines (fun _ => false) [] false ([bytesOf (r"ls")] ++ [255] :: []) =
      simpleCountLines (fun _ => false) [] false ([bytesOf (r"ls")] ++ []) ∧
    fishCountBytes ([bytesOf (r"- cmd: ls")] ++ [255] :: []) [] false =
      fishCountBytes ([bytesOf (r"- cmd: ls")] ++ []) [] false := by
  have h := c9_invalid_line_skipped (fun _ => false) [] false [bytesOf (r"ls")] [] [255]
    (by decide)
  have h2 := c9_invalid_line_skipped (fun _ => false) [] false [bytesOf (r"- cmd: ls")] []
    [255] (by decide)
  exact ⟨h.1, h2.2⟩

/-! ## Helper lemmas for the bar renderer (C8) -/

theorem rustRound_toNat_le (x : ℚ) (W : ℕ) (h0 : 0 ≤ x) (h1 : x ≤ 1) :
    (rustRound (x * W)).toNat ≤ W := by
  have hW0 : (0:ℚ) ≤ (W:ℚ) := by positivity
  have hxw0 : 0 ≤ x * (W:ℚ) := mul_nonneg h0 hW0
  have hxw : x * (W:ℚ) ≤ (W:ℚ) := by
    calc x * (W:ℚ) ≤ 1 * (W:ℚ) := mul_le_mul_of_nonneg_right h1 hW0
    _ = (W:ℚ) := one_mul _
  rw [rustRound, if_pos hxw0]
  have hWfl : ⌊(W:ℚ) + 1/2⌋ = (W:ℤ) := by
    rw [Int.floor_eq_iff]
    constructor
    · push_cast; linarith
    · push_cast; linarith
  have hfl : ⌊x * (W:ℚ) + 1/2⌋ ≤ (W:ℤ) := by
    calc ⌊x * (W:ℚ) + 1/2⌋ ≤ ⌊(W:ℚ) + 1/2⌋ := Int.floor_le_floor (by linarith)
    _ = (W:ℤ) := hWfl
  exact Int.toNat_le.mpr hfl

theorem rustRound_W_eq (W : ℕ) : (rustRound (1 * (W:ℚ))).toNat = W := by
  rw [one_mul, rustRound, if_pos (by positivity)]
  have hWfl : ⌊(W:ℚ) + 1/2⌋ = (W:ℤ) := by
    rw [Int.floor_eq_iff]
    constructor
    · push_cast; linarith
    · push_cast; linarith
  rw [hWfl]
  exact Int.toNat_natCast W

/-! ## Claim C8 -/

/-- C8: under `0 < W` and `0 ≤ pct ≤ inv_cumu_pct ≤ 100`, the three
segment counts of `render_bar_segment` (non-negative by construction as
naturals) sum to exactly `W` whenever at least one display toggle is on,
are all zero when both are off, and for `pct = inv_cumu_pct = 100` with
both toggles on the bar is entirely filled: `(unfilled, semi, filled) =
(0, 0, W)`.  The floating-point products of the source are modelled exactly
over `ℚ` with round-half-away-from-zero. -/
theorem c8_bar_segment_widths (W : ℕ) (perc invc : ℚ) (showCumu showPerc : Bool)
    (_hW : 0 < W) (h0 : 0 ≤ perc) (h1 : perc ≤ invc) (h2 : invc ≤ 100) :
    (((showCumu = true ∨ showPerc = true) →
        (renderBarSegmentCounts perc invc W showCumu showPerc).1 +
          (renderBarSegmentCounts perc invc W showCumu showPerc).2.1 +
          (renderBarSegmentCounts perc invc W showCumu showPerc).2.2 = W) ∧
      (showCumu = false → showPerc = false →
        renderBarSegmentCounts perc invc W showCumu showPerc = (0, 0, 0))) ∧
    renderBarSegmentCounts 100 100 W true true = (0, 0, W) := by
  have hperc100 : perc ≤ 100 := le_trans h1 h2
  have hinv0 : 0 ≤ invc := le_trans h0 h1
  have hd0 : 0 ≤ perc / 100 := by positivity
  have hd1 : perc / 100 ≤ 1 := by
    rw [div_le_one (by norm_num)]
    exact hperc100
  have hi0 : 0 ≤ invc / 100 := by positivity
  have hi1 : invc / 100 ≤ 1 := by
    rw [div_le_one (by norm_num)]
    exact h2
  have hs0 : 0 ≤ invc / 100 - perc / 100 := by
    have hdiv : perc / 100 ≤ invc / 100 := by gcongr
    linarith
  have hs1 : invc / 100 - perc / 100 ≤ 1 := by linarith
  have hspecial : renderBarSegmentCounts 100 100 W true true = (0, 0, W) := by
    have e1 : (rustRound (((100:ℚ) / 100 - 100 / 100) * (W:ℕ))).toNat = 0 := by
      have hz : ((100:ℚ) / 100 - 100 / 100) * (W:ℕ) = 0 := by norm_num
      rw [hz, rustRound, if_pos le_rfl]
      norm_num
    have e2 : (rustRound ((100:ℚ) / 100 * (W:ℕ))).toNat = W := by
      have hone : (100:ℚ) / 100 = 1 := by norm_num
      rw [hone]
      exact rustRound_W_eq W
    dsimp only [renderBarSegmentCounts]
    rw [e1, e2]
    simp
  refine ⟨⟨?_, ?_⟩, hspecial⟩
  · intro htoggle
    have hFle : (rustRound (perc / 100 * (W:ℕ))).toNat ≤ W := rustRound_toNat_le _ W hd0 hd1
    have hSle : (rustRound (invc / 100 * (W:ℕ))).toNat ≤ W := rustRound_toNat_le _ W hi0 hi1
    cases showCumu with
    | true =>
      cases showPerc with
      | true =>
        dsimp only [renderBarSegmentCounts]
        set F := (rustRound (perc / 100 * (W:ℕ))).toNat with hF
        set S := (rustRound ((invc / 100 - perc / 100) * (W:ℕ))).toNat with hS
        by_cases hov : F + S > W
        · rw [if_pos hov]
          have hmin : min (W - F - (W - F)) W = 0 := by
            rw [Nat.sub_self]
            exact Nat.zero_min W
          rw [hmin]
          omega
        · rw [if_neg hov]
          have hle : W - F - S ≤ W := le_trans (Nat.sub_le _ _) (Nat.sub_le _ _)
          rw [min_eq_left hle]
          omega
      | false =>
        dsimp only [renderBarSegmentCounts]
        rw [min_eq_left (Nat.sub_le _ _)]
        omega
    | false =>
      cases showPerc with
      | true =>
        dsimp only [renderBarSegmentCounts]
        rw [min_eq_left (Nat.sub_le _ _)]
        omega
      | false => simp at htoggle
  · intro hc hp
    subst hc
    subst hp
    rfl

/-- C8 witness: the width properties instantiated at bar width 25 with
percentage 30 and inverse-cumulative percentage 80, both toggles on. -/
theorem c8_bar_segment_widths_witness :
    (((true = true ∨ true = true) →
        (renderBarSegmentCounts 30 80 25 true true).1 +
          (renderBarSegmentCounts 30 80 25 true true).2.1 +
          (renderBarSegmentCounts 30 80 25 true true).2.2 = 25) ∧
      (true = false → true = false →
        renderBarSegmentCounts 30 80 25 true true = (0, 0, 0))) ∧
    renderBarSegmentCounts 100 100 25 true true = (0, 0, 25) :=
  c8_bar_segment_widths 25 30 80 true true (by norm_num) (by norm_num) (by norm_num)
    (by norm_num)
